import Mathlib

/-!
Shallow embedding of the voxel-octree core of the repository
(`src/renderer/voxel/octree/{point,cell,tree}.rs` and
`src/renderer/voxel/chunk/chunk.rs`) together with proofs about the
frozen claims.

Modelling conventions:
* Rust `i32` values are modelled as `Int`; the programs under scrutiny
  never overflow `i32` on the inputs the claims quantify over.
* Rust `u8`/`u32`/`usize` values are modelled as `Nat`, with explicit
  `% 2 ^ 32` / `% 2 ^ 64` wrapping where the Rust release-mode
  arithmetic can wrap (`estimated_size` and the alignment mask), and
  with shift amounts masked as Rust release mode masks them.
* Rust `/` on `i32` truncates toward zero, which is `Int.tdiv`.
* Rust indexing `data[i]` panics when `i` is out of bounds; the panic
  is modelled by returning `none` (fallible code returns `Option`).
* The recursive `set_block_state`/`get_block_state` are modelled with
  an explicit fuel argument.  The public entry points pass
  `size.natAbs + 1` units of fuel, which strictly exceeds the actual
  recursion depth (every recursive call strictly shrinks the cell
  extent, which starts at `size`), so the fuel never runs out on any
  call the Rust program can make.
-/

namespace Voxel

set_option maxRecDepth 1000000

/-- `Point3D` from `octree/point.rs`: three `i32` coordinates. -/
structure Point3D where
  x : Int
  y : Int
  z : Int
deriving DecidableEq, Repr

/-- Componentwise addition (`impl Add for Point3D`). -/
instance : Add Point3D := ⟨fun a b => ⟨a.x + b.x, a.y + b.y, a.z + b.z⟩⟩

@[simp] theorem Point3D.add_x (a b : Point3D) : (a + b).x = a.x + b.x := rfl

@[simp] theorem Point3D.add_y (a b : Point3D) : (a + b).y = a.y + b.y := rfl

@[simp] theorem Point3D.add_z (a b : Point3D) : (a + b).z = a.z + b.z := rfl

/-- `From<i32> for Point3D`: broadcast a scalar to all three axes. -/
def Point3D.ofInt (v : Int) : Point3D := ⟨v, v, v⟩

/-- `impl Div<i32> for Point3D`: componentwise `i32` division (Rust `/`
truncates toward zero, i.e. `Int.tdiv`). -/
def Point3D.divScalar (p : Point3D) (s : Int) : Point3D :=
  ⟨p.x.tdiv s, p.y.tdiv s, p.z.tdiv s⟩

/-- `Cell` from `octree/cell.rs`: `extend` is the per-axis half-open
size, `position` the minimum corner. -/
structure Cell where
  extend : Point3D
  position : Point3D
deriving DecidableEq, Repr

/-- `Cell::new(position, extend)` as called by `tree.rs`
(`Cell::new(0, self.size)` — both arguments are `i32` scalars that are
broadcast by `From<i32>`). -/
def Cell.new (position extend : Int) : Cell :=
  { position := Point3D.ofInt position, extend := Point3D.ofInt extend }

/-- `Cell::contains`: half-open interval test on all three axes, in the
order the Rust source writes the six comparisons. -/
def Cell.contains (c : Cell) (p : Point3D) : Bool :=
  decide (p.x ≥ c.position.x ∧ p.y ≥ c.position.y ∧ p.z ≥ c.position.z ∧
    p.x < c.position.x + c.extend.x ∧ p.y < c.position.y + c.extend.y ∧
    p.z < c.position.z + c.extend.z)

/-- The 8 child cells built by `Cell::subdivide`, in source order:
`new_position[i] = self.position + offsets` where the offset uses
`new_extend.z` for bit 0 of `i`, `new_extend.y` for bit 1 and
`new_extend.x` for bit 2. -/
def Cell.subdivideList (c : Cell) : List Cell :=
  let e := c.extend.divScalar 2
  [ ⟨e, c.position⟩,
    ⟨e, c.position + ⟨0, 0, e.z⟩⟩,
    ⟨e, c.position + ⟨0, e.y, 0⟩⟩,
    ⟨e, c.position + ⟨0, e.y, e.z⟩⟩,
    ⟨e, c.position + ⟨e.x, 0, 0⟩⟩,
    ⟨e, c.position + ⟨e.x, 0, e.z⟩⟩,
    ⟨e, c.position + ⟨e.x, e.y, 0⟩⟩,
    ⟨e, c.position + ⟨e.x, e.y, e.z⟩⟩ ]

/-- `Cell::subdivide`: `None` iff `extend == 1` (componentwise equality
with the scalar `1`, via `PartialEq<i32> for Point3D`), otherwise the 8
children of halved extent. -/
def Cell.subdivide (c : Cell) : Option (List Cell) :=
  if c.extend = Point3D.ofInt 1 then none else some c.subdivideList

/-- The `for (cell_index, cell) in cells.iter().enumerate()` search
loop of `set_block_state`/`get_block_state`: the first child (with its
index) that contains the point, or `none` when the loop falls through. -/
def findCell (p : Point3D) : List Cell → Nat → Option (Nat × Cell)
  | [], _ => none
  | c :: rest, i => if c.contains p then some (i, c) else findCell p rest (i + 1)

/-- `Tree` from `octree/tree.rs`: flat byte buffer plus the per-axis
block count.  Bytes are `Nat`s; every reachable state keeps them
`< 256` (they come from `u8` operations). -/
structure Tree where
  data : List Nat
  size : Int
deriving DecidableEq, Repr

/-- Wrapping `u32` subtraction (Rust release mode semantics), for
operands `< 2 ^ 32`. -/
def subU32 (a b : Nat) : Nat := (a + 2 ^ 32 - b) % 2 ^ 32

/-- Wrapping `u64`/`usize` subtraction, for operands `< 2 ^ 64`. -/
def subU64 (a b : Nat) : Nat := (a + 2 ^ 64 - b) % 2 ^ 64

/-- `Tree::pow8`: `1u32 << (3 * exp)`.  In Rust release mode the shift
amount of a `u32` shift is masked to its low 5 bits. -/
def Tree.pow8 (exp : Nat) : Nat := 1 <<< (3 * exp % 32)

/-- Floor base-2 logarithm (fuel-based so that the kernel can evaluate
it; the fuel `n` strictly bounds the number of halvings of `n`). -/
def log2Aux : Nat → Nat → Nat
  | 0, _ => 0
  | fuel + 1, n => if 2 ≤ n then log2Aux fuel (n / 2) + 1 else 0

/-- Floor base-2 logarithm, total on `Nat`. -/
def log2u (n : Nat) : Nat := log2Aux n n

/-- `Tree::estimated_size`.  The Rust code computes the depth as
`(size as f32).log2() as u32`; on every power-of-two `size` (the
documented domain, and the only sizes the claims quantify over) the
`f32` logarithm is exact and the truncating cast keeps it, so the
depth is the floor base-2 logarithm `log2u size`.  The remaining
arithmetic is wrapping `u32` arithmetic as in the source:
`((pow8(depth + 1) - 1) / 7 - 1) / 8`. -/
def Tree.estimated_size (size : Nat) : Nat :=
  let depth := log2u size
  subU32 (subU32 (Tree.pow8 (depth + 1)) 1 / 7) 1 / 8

/-- `Tree::estimated_size_aligned`:
`(estimated_size(size) + (alignement - 1)) & !(alignement - 1)` in
`usize` arithmetic (the `!` is 64-bit complement, modelled by XOR with
`2 ^ 64 - 1`; the subtraction and addition wrap at `2 ^ 64`). -/
def Tree.estimated_size_aligned (size alignement : Nat) : Nat :=
  ((Tree.estimated_size size + subU64 alignement 1) % 2 ^ 64) &&&
    ((2 ^ 64 - 1) ^^^ subU64 alignement 1)

/-- `Tree::new(size)`: a zero-filled buffer of
`estimated_size_aligned(size, 256)` bytes; `size` is stored as `i32`. -/
def Tree.new (size : Nat) : Tree :=
  { data := List.replicate (Tree.estimated_size_aligned size 256) 0
    size := (size : Int) }

/-- The two buffer writes of one `set_block_state` step, given the byte
`b` read at `offset`: the unconditional `self.data[offset] |= mask`
(with `mask = 1 << i`), then — only when `next >= data.len()` — the
leaf overwrite `self.data[offset] = (self.data[offset] & !mask) |
((state as u8) << i)` (the re-read `self.data[offset]` is `b | mask`,
and `!` is the `u8` complement, XOR with 255). -/
def writeByte (data : List Nat) (offset i b : Nat) (state : Bool) (next : Nat) :
    List Nat :=
  let d1 := data.set offset (b ||| 1 <<< i)
  if next ≥ d1.length then
    d1.set offset ((b ||| 1 <<< i) &&& (255 ^^^ 1 <<< i) ||| (cond state 1 0) <<< i)
  else d1

/-- The recursive body of `Tree::set_block_state`.  `cell`/`offset` are
the `SearchParameter::Custom` data of the current recursive call.
Mirrors the source line by line:
* subdivision failure or a fallen-through search loop returns with no
  write;
* otherwise the byte at `offset` is read (a panic — `none` — if
  `offset` is out of bounds) and written back through `writeByte`, and
  the call tail-recurses on the matched child at
  `next_offset = offset * 8 + (cell_index + 1)`. -/
def setAux : Nat → List Nat → Point3D → Bool → Cell → Nat → Option (List Nat)
  | 0, _, _, _, _, _ => none
  | fuel + 1, data, p, state, cell, offset =>
    match cell.subdivide with
    | none => some data
    | some cells =>
      match findCell p cells 0 with
      | none => some data
      | some (i, child) =>
        match data[offset]? with
        | none => none
        | some b =>
          setAux fuel (writeByte data offset i b state (offset * 8 + (i + 1)))
            p state child (offset * 8 + (i + 1))

/-- The recursive body of `Tree::get_block_state`: an unset bit on the
path returns `false` immediately, running past the last subdividable
cell (or a fallen-through search loop) returns `true`. -/
def getAux : Nat → List Nat → Point3D → Cell → Nat → Option Bool
  | 0, _, _, _, _ => none
  | fuel + 1, data, p, cell, offset =>
    match cell.subdivide with
    | none => some true
    | some cells =>
      match findCell p cells 0 with
      | none => some true
      | some (i, child) =>
        let mask := 1 <<< i
        match data[offset]? with
        | none => none
        | some b =>
          if b &&& mask ≠ mask then some false
          else getAux fuel data p child (offset * 8 + (i + 1))

/-- The root-to-leaf descent path for `p`: the `(offset, child_index)`
pairs visited by the recursion, which depend only on the cells, never
on the buffer. -/
def descend : Nat → Point3D → Cell → Nat → List (Nat × Nat)
  | 0, _, _, _ => []
  | fuel + 1, p, cell, offset =>
    match cell.subdivide with
    | none => []
    | some cells =>
      match findCell p cells 0 with
      | none => []
      | some (i, child) => (offset, i) :: descend fuel p child (offset * 8 + (i + 1))

/-- `Tree::set_block_state(at, state, SearchParameter::None)`:
start from `Cell::new(0, self.size)` at offset 0. -/
def Tree.set_block_state (t : Tree) (p : Point3D) (state : Bool) : Option Tree :=
  match setAux (t.size.natAbs + 1) t.data p state (Cell.new 0 t.size) 0 with
  | some d => some { data := d, size := t.size }
  | none => none

/-- `Tree::get_block_state(at, SearchParameter::None)`. -/
def Tree.get_block_state (t : Tree) (p : Point3D) : Option Bool :=
  getAux (t.size.natAbs + 1) t.data p (Cell.new 0 t.size) 0

/-- Membership of a point in the half-open cube of side `e` at `pos`
(used to state "p is inside the domain `[0,size)^3`" and to reason
about uniform cells). -/
def inCube (pos : Point3D) (e : Int) (p : Point3D) : Prop :=
  pos.x ≤ p.x ∧ p.x < pos.x + e ∧ pos.y ≤ p.y ∧ p.y < pos.y + e ∧
    pos.z ≤ p.z ∧ p.z < pos.z + e

instance (pos : Point3D) (e : Int) (p : Point3D) : Decidable (inCube pos e p) := by
  unfold inCube; infer_instance

/-- `Chunk<SIZE>` from `chunk/chunk.rs` (the GPU buffer handles are out
of scope); `voxels` holds `u16` values. -/
structure Chunk where
  pos : Point3D
  tree : Tree
  voxels : List Nat
deriving DecidableEq, Repr

/-- `Chunk::<SIZE>::new(pos)`: a zero-filled `SIZE^3` dense grid and an
octree sized for `SIZE`. -/
def Chunk.new (SIZE : Nat) (pos : Point3D) : Chunk :=
  { pos := pos
    tree := Tree.new SIZE
    voxels := List.replicate (SIZE * SIZE * SIZE) 0 }

/-- `Chunk::set_voxel(ty, x, y, z)`.  The Rust body is the single
statement `self.voxels[0];` — it indexes element 0 (a panic when the
grid is empty, hence the `Option`) and discards it, writing nothing. -/
def Chunk.set_voxel (c : Chunk) (ty x y z : Nat) : Option Chunk :=
  match c.voxels[0]? with
  | none => none
  | some _ => some c

/-- `Chunk::get_raw_voxels`: `bytemuck::cast_slice` of the `u16` grid
into bytes, i.e. each element split into its two little-endian bytes
(the host byte order of the reference target). -/
def Chunk.get_raw_voxels (c : Chunk) : List Nat :=
  c.voxels.flatMap (fun v => [v % 256, v / 256])

/-- Invariant of every reachable `Tree` of block count `2 ^ k`: the
stored size, the buffer length fixed at construction, and the `u8`
range of the bytes. -/
def Tree.WF (t : Tree) (k : Nat) : Prop :=
  t.size = (2 : Int) ^ k ∧
    t.data.length = Tree.estimated_size_aligned (2 ^ k) 256 ∧
    ∀ b ∈ t.data, b < 256

instance (t : Tree) (k : Nat) : Decidable (t.WF k) := by
  unfold Tree.WF; infer_instance

/-- The presence/occupancy bits along a descent path, as they must look
after a successful `set_block_state(p, state)`: every interior entry of
the path has its bit set to 1, and the bit of the last entry (the
leaf's parent byte) is the written state when `next_offset` fell
outside the buffer, and 1 otherwise. -/
def pathBits (d : List Nat) (state : Bool) : List (Nat × Nat) → Prop
  | [] => True
  | [(o, i)] => (d.getD o 0).testBit i = (state || decide (o * 8 + (i + 1) < d.length))
  | (o, i) :: rest => (d.getD o 0).testBit i = true ∧ pathBits d state rest

/-! ### Bit-level helper lemmas (all bytes are `u8` values, masks are `1 << i`) -/

theorem testBit_or_mask (x i : Nat) : (x ||| 1 <<< i).testBit i = true := by
  rw [Nat.shiftLeft_eq, one_mul, Nat.testBit_lor, Nat.testBit_two_pow]
  simp

theorem and_mask_eq_mask_iff (b i : Nat) :
    b &&& 1 <<< i = 1 <<< i ↔ b.testBit i = true := by
  rw [Nat.shiftLeft_eq, one_mul, Nat.and_two_pow]
  have hpos : 0 < (2 : Nat) ^ i := Nat.pos_pow_of_pos i (by norm_num)
  rcases h : b.testBit i with _ | _ <;> simp [h] <;> omega

theorem testBit_overwrite (b i : Nat) (state : Bool) (hi : i < 8) :
    ((b ||| 1 <<< i) &&& (255 ^^^ 1 <<< i) ||| (cond state 1 0) <<< i).testBit i
      = state := by
  rw [Nat.shiftLeft_eq, one_mul, Nat.testBit_lor, Nat.testBit_land, Nat.testBit_xor,
    Nat.testBit_two_pow]
  have h255 : (255 : Nat).testBit i = true := by
    have : (255 : Nat) = 2 ^ 8 - 1 := by norm_num
    rw [this, Nat.testBit_two_pow_sub_one]
    simpa using hi
  rcases state with _ | _
  · simp [h255, Nat.shiftLeft_eq]
  · simp [h255, Nat.shiftLeft_eq, Nat.testBit_two_pow]

theorem or_mask_eq_self (x i : Nat) (h : x.testBit i = true) : x ||| 1 <<< i = x := by
  refine Nat.eq_of_testBit_eq fun j => ?_
  rw [Nat.shiftLeft_eq, one_mul, Nat.testBit_lor, Nat.testBit_two_pow]
  by_cases hj : i = j
  · subst hj; simp [h]
  · simp [hj]

theorem overwrite_eq_self (x i : Nat) (hx : x < 256) (hi : i < 8)
    (h : x.testBit i = true) : x &&& (255 ^^^ 1 <<< i) ||| 1 <<< i = x := by
  refine Nat.eq_of_testBit_eq fun j => ?_
  rw [Nat.shiftLeft_eq, one_mul, Nat.testBit_lor, Nat.testBit_land, Nat.testBit_xor,
    Nat.testBit_two_pow]
  have h255 : ∀ m : Nat, (255 : Nat).testBit m = decide (m < 8) := by
    intro m
    have : (255 : Nat) = 2 ^ 8 - 1 := by norm_num
    rw [this, Nat.testBit_two_pow_sub_one]
  by_cases hj : i = j
  · subst hj; simp [h, h255, hi]
  · by_cases hj8 : j < 8
    · simp [h255, hj8, hj]
    · have hxlt : x < 2 ^ j := by
        calc x < 256 := hx
        _ = 2 ^ 8 := by norm_num
        _ ≤ 2 ^ j := Nat.pow_le_pow_right (by norm_num) (by omega)
      have hxj : x.testBit j = false := Nat.testBit_lt_two_pow hxlt
      simp [h255, hj8, hj, hxj]

theorem or_mask_lt (b i : Nat) (hb : b < 256) (hi : i < 8) : b ||| 1 <<< i < 256 := by
  have : (1 <<< i : Nat) < 256 := by
    rw [Nat.shiftLeft_eq, one_mul]
    calc (2 : Nat) ^ i ≤ 2 ^ 7 := Nat.pow_le_pow_right (by norm_num) (by omega)
    _ < 256 := by norm_num
  exact Nat.or_lt_two_pow (n := 8) hb this

theorem overwrite_lt (b i s : Nat) (hb : b < 256) (hi : i < 8) (hs : s ≤ 1) :
    b &&& (255 ^^^ 1 <<< i) ||| s <<< i < 256 := by
  have h1 : b &&& (255 ^^^ 1 <<< i) < 256 := lt_of_le_of_lt Nat.and_le_left hb
  have h2 : (s <<< i : Nat) < 256 := by
    rw [Nat.shiftLeft_eq]
    calc s * 2 ^ i ≤ 1 * 2 ^ 7 := by
          exact Nat.mul_le_mul hs (Nat.pow_le_pow_right (by norm_num) (by omega))
    _ < 256 := by norm_num
  exact Nat.or_lt_two_pow (n := 8) h1 h2

/-! ### Structure of the search loop and the buffer writes -/

theorem subdivide_eq_some {c : Cell} {cells : List Cell}
    (h : c.subdivide = some cells) : cells = c.subdivideList := by
  unfold Cell.subdivide at h
  split at h
  · cases h
  · exact (Option.some.injEq _ _ ▸ h).symm

theorem subdivideList_length (c : Cell) : c.subdivideList.length = 8 := rfl

theorem findCell_spec {p : Point3D} :
    ∀ (l : List Cell) (n : Nat) {i : Nat} {c : Cell},
    findCell p l n = some (i, c) →
    ∃ j, j < l.length ∧ i = n + j ∧ l[j]? = some c ∧ c.contains p = true := by
  intro l
  induction l with
  | nil => intro n i c h; simp [findCell] at h
  | cons hd tl ih =>
    intro n i c h
    rw [findCell] at h
    by_cases hc : hd.contains p
    · rw [if_pos hc] at h
      obtain ⟨hi, hcell⟩ : i = n ∧ hd = c := by
        constructor <;> [skip; skip] <;> cases h <;> rfl
      exact ⟨0, by simp, by omega, by simp [← hcell], by rw [← hcell]; exact hc⟩
    · rw [if_neg hc] at h
      obtain ⟨j, hj, hij, hget, hcont⟩ := ih (n + 1) h
      exact ⟨j + 1, by simpa using hj, by omega, by simpa using hget, hcont⟩

theorem writeByte_length (data : List Nat) (o i b : Nat) (st : Bool) (next : Nat) :
    (writeByte data o i b st next).length = data.length := by
  simp only [writeByte]
  split <;> simp

theorem writeByte_getElem_ne (data : List Nat) (o i b : Nat) (st : Bool)
    (next : Nat) {j : Nat} (h : j ≠ o) :
    (writeByte data o i b st next)[j]? = data[j]? := by
  simp only [writeByte]
  split
  · rw [List.getElem?_set_ne (by omega), List.getElem?_set_ne (by omega)]
  · rw [List.getElem?_set_ne (by omega)]

theorem writeByte_getElem_self (data : List Nat) (o i b : Nat) (st : Bool)
    (next : Nat) (ho : o < data.length) :
    (writeByte data o i b st next)[o]? =
      some (if data.length ≤ next then
          (b ||| 1 <<< i) &&& (255 ^^^ 1 <<< i) ||| (cond st 1 0) <<< i
        else b ||| 1 <<< i) := by
  simp only [writeByte, List.length_set, ge_iff_le]
  split
  · rw [List.getElem?_set_self (by simpa using ho)]
  · rw [List.getElem?_set_self ho]

theorem writeByte_bytes (data : List Nat) (o i b : Nat) (st : Bool) (next : Nat)
    (hdata : ∀ v ∈ data, v < 256) (hb : b < 256) (hi : i < 8) :
    ∀ v ∈ writeByte data o i b st next, v < 256 := by
  have h1 : ∀ v ∈ data.set o (b ||| 1 <<< i), v < 256 := by
    intro v hv
    rcases List.mem_or_eq_of_mem_set hv with hv | hv
    · exact hdata v hv
    · subst hv; exact or_mask_lt b i hb hi
  intro v hv
  simp only [writeByte] at hv
  split at hv
  · rcases List.mem_or_eq_of_mem_set hv with hv | hv
    · exact h1 v hv
    · subst hv
      exact overwrite_lt (b ||| 1 <<< i) i (cond st 1 0) (or_mask_lt b i hb hi)
        hi (by cases st <;> simp)
  · exact h1 v hv

theorem setAux_frame (fuel : Nat) :
    ∀ (data : List Nat) (p : Point3D) (st : Bool) (cell : Cell) (o : Nat)
      (d' : List Nat), setAux fuel data p st cell o = some d' →
      d'.length = data.length ∧ ∀ j, j < o → d'[j]? = data[j]? := by
  induction fuel with
  | zero => intro data p st cell o d' h; simp [setAux] at h
  | succ f ih =>
    intro data p st cell o d' h
    rcases hsub : cell.subdivide with _ | cells
    · simp only [setAux, hsub] at h
      cases h; exact ⟨rfl, fun j _ => rfl⟩
    rcases hfind : findCell p cells 0 with _ | ⟨i, child⟩
    · simp only [setAux, hsub, hfind] at h
      cases h; exact ⟨rfl, fun j _ => rfl⟩
    rcases hget : data[o]? with _ | b
    · simp only [setAux, hsub, hfind, hget] at h
      exact Option.noConfusion h
    simp only [setAux, hsub, hfind, hget] at h
    obtain ⟨hlen, hpres⟩ := ih _ p st child _ d' h
    refine ⟨by rw [hlen, writeByte_length], fun j hj => ?_⟩
    rw [hpres j (by omega), writeByte_getElem_ne data o i b st _ (by omega)]

theorem setAux_bytes (fuel : Nat) :
    ∀ (data : List Nat) (p : Point3D) (st : Bool) (cell : Cell) (o : Nat)
      (d' : List Nat), setAux fuel data p st cell o = some d' →
      (∀ b ∈ data, b < 256) → ∀ b ∈ d', b < 256 := by
  induction fuel with
  | zero => intro data p st cell o d' h; simp [setAux] at h
  | succ f ih =>
    intro data p st cell o d' h hdata
    rcases hsub : cell.subdivide with _ | cells
    · simp only [setAux, hsub] at h
      cases h; exact hdata
    rcases hfind : findCell p cells 0 with _ | ⟨i, child⟩
    · simp only [setAux, hsub, hfind] at h
      cases h; exact hdata
    rcases hget : data[o]? with _ | b
    · simp only [setAux, hsub, hfind, hget] at h
      exact Option.noConfusion h
    simp only [setAux, hsub, hfind, hget] at h
    have hi8 : i < 8 := by
      obtain ⟨j, hj, hij, _, _⟩ := findCell_spec cells 0 hfind
      have : cells.length = 8 := by rw [subdivide_eq_some hsub]; rfl
      omega
    have hb : b < 256 := hdata b (List.getElem?_mem hget)
    exact ih _ p st child _ d' h (writeByte_bytes data o i b st _ hdata hb hi8)

/-! ### The descent through uniform power-of-two cells -/

theorem contains_eq_true {c : Cell} {p : Point3D}
    (h : c.position.x ≤ p.x ∧ p.x < c.position.x + c.extend.x ∧
      c.position.y ≤ p.y ∧ p.y < c.position.y + c.extend.y ∧
      c.position.z ≤ p.z ∧ p.z < c.position.z + c.extend.z) :
    c.contains p = true := by
  simp only [Cell.contains, decide_eq_true_eq]
  omega

theorem contains_eq_false {c : Cell} {p : Point3D}
    (h : ¬(c.position.x ≤ p.x ∧ p.x < c.position.x + c.extend.x ∧
      c.position.y ≤ p.y ∧ p.y < c.position.y + c.extend.y ∧
      c.position.z ≤ p.z ∧ p.z < c.position.z + c.extend.z)) :
    c.contains p = false := by
  simp only [Cell.contains, decide_eq_false_iff_not]
  omega

theorem findCell_cons_neg {p : Point3D} {c : Cell} (rest : List Cell) (n : Nat)
    (hc : c.contains p = false) :
    findCell p (c :: rest) n = findCell p rest (n + 1) := by
  rw [findCell, if_neg (by simp [hc])]

theorem findCell_cons_pos {p : Point3D} {c : Cell} (rest : List Cell) (n : Nat)
    (hc : c.contains p = true) : findCell p (c :: rest) n = some (n, c) := by
  rw [findCell, if_pos hc]

theorem divScalar_two_mul (h : Int) :
    (Point3D.ofInt (2 * h)).divScalar 2 = Point3D.ofInt h := by
  unfold Point3D.divScalar Point3D.ofInt
  simp [Int.mul_tdiv_cancel_left, (by norm_num : (2 : Int) ≠ 0)]

/-- The search loop over the subdivision of a uniform cell of side
`2 * h` finds a child of side `h` containing `p`, whenever `p` lies in
the parent cube. -/
theorem findCell_subdivideList (h : Int) (pos p : Point3D) (hpos : 0 < h)
    (hp : inCube pos (2 * h) p) :
    ∃ i cpos, findCell p (Cell.subdivideList ⟨Point3D.ofInt (2 * h), pos⟩) 0 =
        some (i, ⟨Point3D.ofInt h, cpos⟩) ∧ i < 8 ∧ inCube cpos h p := by
  obtain ⟨hx1, hx2, hy1, hy2, hz1, hz2⟩ := hp
  have hlist : Cell.subdivideList ⟨Point3D.ofInt (2 * h), pos⟩ =
      [ ⟨Point3D.ofInt h, pos⟩,
        ⟨Point3D.ofInt h, pos + ⟨0, 0, h⟩⟩,
        ⟨Point3D.ofInt h, pos + ⟨0, h, 0⟩⟩,
        ⟨Point3D.ofInt h, pos + ⟨0, h, h⟩⟩,
        ⟨Point3D.ofInt h, pos + ⟨h, 0, 0⟩⟩,
        ⟨Point3D.ofInt h, pos + ⟨h, 0, h⟩⟩,
        ⟨Point3D.ofInt h, pos + ⟨h, h, 0⟩⟩,
        ⟨Point3D.ofInt h, pos + ⟨h, h, h⟩⟩ ] := by
    simp only [Cell.subdivideList, divScalar_two_mul]
    rfl
  rw [hlist]
  by_cases hbx : p.x < pos.x + h <;> by_cases hby : p.y < pos.y + h <;>
    by_cases hbz : p.z < pos.z + h
  · refine ⟨0, pos, ?_, by norm_num, ?_⟩
    · rw [findCell_cons_pos _ _ (contains_eq_true (by simp [Point3D.ofInt]; omega))]
    · simp only [inCube]; omega
  · refine ⟨1, pos + ⟨0, 0, h⟩, ?_, by norm_num, ?_⟩
    · rw [findCell_cons_neg _ _ (contains_eq_false (by simp [Point3D.ofInt]; omega)),
        findCell_cons_pos _ _ (contains_eq_true (by simp [Point3D.ofInt]; omega))]
    · simp only [inCube, Point3D.add_x, Point3D.add_y, Point3D.add_z]; omega
  · refine ⟨2, pos + ⟨0, h, 0⟩, ?_, by norm_num, ?_⟩
    · rw [findCell_cons_neg _ _ (contains_eq_false (by simp [Point3D.ofInt]; omega)),
        findCell_cons_neg _ _ (contains_eq_false (by simp [Point3D.ofInt]; omega)),
        findCell_cons_pos _ _ (contains_eq_true (by simp [Point3D.ofInt]; omega))]
    · simp only [inCube, Point3D.add_x, Point3D.add_y, Point3D.add_z]; omega
  · refine ⟨3, pos + ⟨0, h, h⟩, ?_, by norm_num, ?_⟩
    · rw [findCell_cons_neg _ _ (contains_eq_false (by simp [Point3D.ofInt]; omega)),
        findCell_cons_neg _ _ (contains_eq_false (by simp [Point3D.ofInt]; omega)),
        findCell_cons_neg _ _ (contains_eq_false (by simp [Point3D.ofInt]; omega)),
        findCell_cons_pos _ _ (contains_eq_true (by simp [Point3D.ofInt]; omega))]
    · simp only [inCube, Point3D.add_x, Point3D.add_y, Point3D.add_z]; omega
  · refine ⟨4, pos + ⟨h, 0, 0⟩, ?_, by norm_num, ?_⟩
    · rw [findCell_cons_neg _ _ (contains_eq_false (by simp [Point3D.ofInt]; omega)),
        findCell_cons_neg _ _ (contains_eq_false (by simp [Point3D.ofInt]; omega)),
        findCell_cons_neg _ _ (contains_eq_false (by simp [Point3D.ofInt]; omega)),
        findCell_cons_neg _ _ (contains_eq_false (by simp [Point3D.ofInt]; omega)),
        findCell_cons_pos _ _ (contains_eq_true (by simp [Point3D.ofInt]; omega))]
    · simp only [inCube, Point3D.add_x, Point3D.add_y, Point3D.add_z]; omega
  · refine ⟨5, pos + ⟨h, 0, h⟩, ?_, by norm_num, ?_⟩
    · rw [findCell_cons_neg _ _ (contains_eq_false (by simp [Point3D.ofInt]; omega)),
        findCell_cons_neg _ _ (contains_eq_false (by simp [Point3D.ofInt]; omega)),
        findCell_cons_neg _ _ (contains_eq_false (by simp [Point3D.ofInt]; omega)),
        findCell_cons_neg _ _ (contains_eq_false (by simp [Point3D.ofInt]; omega)),
        findCell_cons_neg _ _ (contains_eq_false (by simp [Point3D.ofInt]; omega)),
        findCell_cons_pos _ _ (contains_eq_true (by simp [Point3D.ofInt]; omega))]
    · simp only [inCube, Point3D.add_x, Point3D.add_y, Point3D.add_z]; omega
  · refine ⟨6, pos + ⟨h, h, 0⟩, ?_, by norm_num, ?_⟩
    · rw [findCell_cons_neg _ _ (contains_eq_false (by simp [Point3D.ofInt]; omega)),
        findCell_cons_neg _ _ (contains_eq_false (by simp [Point3D.ofInt]; omega)),
        findCell_cons_neg _ _ (contains_eq_false (by simp [Point3D.ofInt]; omega)),
        findCell_cons_neg _ _ (contains_eq_false (by simp [Point3D.ofInt]; omega)),
        findCell_cons_neg _ _ (contains_eq_false (by simp [Point3D.ofInt]; omega)),
        findCell_cons_neg _ _ (contains_eq_false (by simp [Point3D.ofInt]; omega)),
        findCell_cons_pos _ _ (contains_eq_true (by simp [Point3D.ofInt]; omega))]
    · simp only [inCube, Point3D.add_x, Point3D.add_y, Point3D.add_z]; omega
  · refine ⟨7, pos + ⟨h, h, h⟩, ?_, by norm_num, ?_⟩
    · rw [findCell_cons_neg _ _ (contains_eq_false (by simp [Point3D.ofInt]; omega)),
        findCell_cons_neg _ _ (contains_eq_false (by simp [Point3D.ofInt]; omega)),
        findCell_cons_neg _ _ (contains_eq_false (by simp [Point3D.ofInt]; omega)),
        findCell_cons_neg _ _ (contains_eq_false (by simp [Point3D.ofInt]; omega)),
        findCell_cons_neg _ _ (contains_eq_false (by simp [Point3D.ofInt]; omega)),
        findCell_cons_neg _ _ (contains_eq_false (by simp [Point3D.ofInt]; omega)),
        findCell_cons_neg _ _ (contains_eq_false (by simp [Point3D.ofInt]; omega)),
        findCell_cons_pos _ _ (contains_eq_true (by simp [Point3D.ofInt]; omega))]
    · simp only [inCube, Point3D.add_x, Point3D.add_y, Point3D.add_z]; omega

/-- A uniform cell of side `2 ^ (m + 1)` always subdivides. -/
theorem subdivide_pow_succ (m : Nat) (pos : Point3D) :
    Cell.subdivide ⟨Point3D.ofInt ((2 : Int) ^ (m + 1)), pos⟩ =
      some (Cell.subdivideList ⟨Point3D.ofInt ((2 : Int) ^ (m + 1)), pos⟩) := by
  unfold Cell.subdivide
  rw [if_neg]
  intro hcontra
  have hx : ((2 : Int) ^ (m + 1)) = 1 := congrArg Point3D.x (by exact hcontra)
  have h2 : (2 : Int) ^ (m + 1) ≥ 2 := by
    calc (2 : Int) ^ (m + 1) ≥ 2 ^ 1 := by
          apply pow_le_pow_right (by norm_num) (by omega)
    _ = 2 := by norm_num
  omega

/-- A unit cell does not subdivide. -/
theorem subdivide_unit (pos : Point3D) :
    Cell.subdivide ⟨Point3D.ofInt 1, pos⟩ = none := by
  unfold Cell.subdivide
  rw [if_pos rfl]

theorem two_pow_succ_int (m : Nat) :
    (2 : Int) ^ (m + 1) = 2 * 2 ^ m := by
  rw [pow_succ, mul_comm]

/-! ### Offset bounds: every interior offset of the descent stays inside
the buffer whenever the buffer holds all interior nodes. -/

/-- `offsetBound m o len` says that a descent of `m + 1` further
interior levels starting at offset `o` only touches offsets `< len`
(equivalently, the largest offset reachable, `8^m * o + 8*(8^m - 1)/7`,
is `< len`, cleared of the division by 7). -/
def offsetBound (m o len : Nat) : Prop := 8 ^ m * (7 * o + 8) ≤ 7 * len + 1

theorem offsetBound_lt {m o len : Nat} (h : offsetBound m o len) : o < len := by
  unfold offsetBound at h
  have h1 : 7 * o + 8 ≤ 8 ^ m * (7 * o + 8) :=
    Nat.le_mul_of_pos_left _ (Nat.pos_pow_of_pos m (by norm_num))
  omega

theorem offsetBound_step {m o len i : Nat} (hi : i < 8)
    (hb : offsetBound (m + 1) o len) : offsetBound m (o * 8 + (i + 1)) len := by
  unfold offsetBound at *
  calc 8 ^ m * (7 * (o * 8 + (i + 1)) + 8) ≤ 8 ^ m * (8 * (7 * o + 8)) :=
        Nat.mul_le_mul_left _ (by omega)
  _ = 8 ^ (m + 1) * (7 * o + 8) := by ring
  _ ≤ 7 * len + 1 := hb

theorem setAux_unit (fuel : Nat) (data : List Nat) (p : Point3D) (st : Bool)
    (pos : Point3D) (o : Nat) (hf : 1 ≤ fuel) :
    setAux fuel data p st ⟨Point3D.ofInt ((2 : Int) ^ 0), pos⟩ o = some data := by
  rcases fuel with _ | f
  · omega
  have hs := subdivide_unit pos
  rw [pow_zero]
  simp only [setAux, hs]

theorem getAux_unit (fuel : Nat) (data : List Nat) (p : Point3D)
    (pos : Point3D) (o : Nat) (hf : 1 ≤ fuel) :
    getAux fuel data p ⟨Point3D.ofInt ((2 : Int) ^ 0), pos⟩ o = some true := by
  rcases fuel with _ | f
  · omega
  have hs := subdivide_unit pos
  rw [pow_zero]
  simp only [getAux, hs]

/-- Totality of the descent (no fuel exhaustion, no out-of-bounds
index) for both operations, given the offset bound. -/
theorem setAux_getAux_total (m : Nat) :
    ∀ (pos p : Point3D) (data : List Nat) (o fuel : Nat) (st : Bool),
    m + 1 ≤ fuel → inCube pos ((2 : Int) ^ m) p →
    (∀ m', m = m' + 1 → offsetBound m' o data.length) →
    (setAux fuel data p st ⟨Point3D.ofInt ((2 : Int) ^ m), pos⟩ o).isSome ∧
      (getAux fuel data p ⟨Point3D.ofInt ((2 : Int) ^ m), pos⟩ o).isSome := by
  induction m with
  | zero =>
    intro pos p data o fuel st hf hp hob
    rw [setAux_unit fuel data p st pos o hf, getAux_unit fuel data p pos o hf]
    exact ⟨rfl, rfl⟩
  | succ m ih =>
    intro pos p data o fuel st hf hp hob
    rcases fuel with _ | f
    · omega
    have hb : offsetBound m o data.length := hob m rfl
    have ho : o < data.length := offsetBound_lt hb
    have hp2 : inCube pos (2 * (2 : Int) ^ m) p := by
      rw [← two_pow_succ_int]; exact hp
    obtain ⟨i, cpos, hfind, hi8, hc⟩ :=
      findCell_subdivideList ((2 : Int) ^ m) pos p (by positivity) hp2
    have hfind' : findCell p
        (Cell.subdivideList ⟨Point3D.ofInt ((2 : Int) ^ (m + 1)), pos⟩) 0 =
        some (i, ⟨Point3D.ofInt ((2 : Int) ^ m), cpos⟩) := by
      rw [show Point3D.ofInt ((2 : Int) ^ (m + 1)) = Point3D.ofInt (2 * 2 ^ m) by
        rw [two_pow_succ_int]]
      exact hfind
    have hget : data[o]? = some data[o] :=
      (List.getElem?_eq_some_getElem_iff data o ho).mpr trivial
    have hob' : ∀ m', m = m' + 1 →
        offsetBound m' (o * 8 + (i + 1)) data.length := by
      intro m' hm'
      exact offsetBound_step hi8 (hm' ▸ hb)
    constructor
    · simp only [setAux, subdivide_pow_succ, hfind', hget]
      refine (ih cpos p _ _ f st (by omega) hc ?_).1
      rw [writeByte_length]
      exact hob'
    · simp only [getAux, subdivide_pow_succ, hfind', hget]
      split
      · rfl
      · exact (ih cpos p data _ f st (by omega) hc hob').2

theorem list_set_self {l : List Nat} {o v : Nat} (h : l[o]? = some v) :
    l.set o v = l := by
  apply List.ext_getElem?
  intro j
  by_cases hj : o = j
  · subst hj
    rw [List.getElem?_set_self (List.getElem?_eq_some_iff.mp h).1]
    exact h.symm
  · rw [List.getElem?_set_ne hj]

/-- After a successful `set_block_state(p, true)`, re-descending with
`get_block_state(p)` finds every bit on the path set and answers
`true`. -/
theorem setAux_getAux_roundtrip (m : Nat) :
    ∀ (pos p : Point3D) (data : List Nat) (o fuel : Nat),
    m + 1 ≤ fuel → inCube pos ((2 : Int) ^ m) p →
    (∀ m', m = m' + 1 → offsetBound m' o data.length) →
    ∃ d', setAux fuel data p true ⟨Point3D.ofInt ((2 : Int) ^ m), pos⟩ o = some d' ∧
      getAux fuel d' p ⟨Point3D.ofInt ((2 : Int) ^ m), pos⟩ o = some true := by
  induction m with
  | zero =>
    intro pos p data o fuel hf hp hob
    exact ⟨data, setAux_unit fuel data p true pos o hf,
      getAux_unit fuel data p pos o hf⟩
  | succ m ih =>
    intro pos p data o fuel hf hp hob
    rcases fuel with _ | f
    · omega
    have hb : offsetBound m o data.length := hob m rfl
    have ho : o < data.length := offsetBound_lt hb
    have hp2 : inCube pos (2 * (2 : Int) ^ m) p := by
      rw [← two_pow_succ_int]; exact hp
    obtain ⟨i, cpos, hfind, hi8, hc⟩ :=
      findCell_subdivideList ((2 : Int) ^ m) pos p (by positivity) hp2
    have hfind' : findCell p
        (Cell.subdivideList ⟨Point3D.ofInt ((2 : Int) ^ (m + 1)), pos⟩) 0 =
        some (i, ⟨Point3D.ofInt ((2 : Int) ^ m), cpos⟩) := by
      rw [show Point3D.ofInt ((2 : Int) ^ (m + 1)) = Point3D.ofInt (2 * 2 ^ m) by
        rw [two_pow_succ_int]]
      exact hfind
    have hget : data[o]? = some data[o] :=
      (List.getElem?_eq_some_getElem_iff data o ho).mpr trivial
    have hWlen : (writeByte data o i data[o] true (o * 8 + (i + 1))).length =
        data.length := writeByte_length data o i data[o] true (o * 8 + (i + 1))
    obtain ⟨d', hset, hgetT⟩ := ih cpos p
      (writeByte data o i data[o] true (o * 8 + (i + 1))) (o * 8 + (i + 1)) f
      (by omega) hc
      (fun m' hm' => by rw [hWlen]; exact offsetBound_step hi8 (hm' ▸ hb))
    refine ⟨d', ?_, ?_⟩
    · simp only [setAux, subdivide_pow_succ, hfind', hget]
      exact hset
    · obtain ⟨hlen', hpres⟩ := setAux_frame f
        (writeByte data o i data[o] true (o * 8 + (i + 1))) p true
        ⟨Point3D.ofInt ((2 : Int) ^ m), cpos⟩ (o * 8 + (i + 1)) d' hset
      have hdo : d'[o]? = (writeByte data o i data[o] true (o * 8 + (i + 1)))[o]? :=
        hpres o (by omega)
      rw [writeByte_getElem_self data o i data[o] true (o * 8 + (i + 1)) ho] at hdo
      have hbit : (if data.length ≤ o * 8 + (i + 1) then
          (data[o] ||| 1 <<< i) &&& (255 ^^^ 1 <<< i) ||| 1 <<< i
        else data[o] ||| 1 <<< i).testBit i = true := by
        split
        · simpa using testBit_overwrite data[o] i true hi8
        · exact testBit_or_mask data[o] i
      simp only [getAux, subdivide_pow_succ, hfind', hdo]
      rw [if_neg (by simp [(and_mask_eq_mask_iff _ i).mpr hbit])]
      exact hgetT

theorem writeByte_eq_of_lt (data : List Nat) (o i b : Nat) (st : Bool)
    (next : Nat) (h : next < data.length) :
    writeByte data o i b st next = data.set o (b ||| 1 <<< i) := by
  simp only [writeByte, List.length_set, ge_iff_le]
  rw [if_neg (by omega)]

theorem descend_unit (fuel : Nat) (p pos : Point3D) (o : Nat) (hf : 1 ≤ fuel) :
    descend fuel p ⟨Point3D.ofInt ((2 : Int) ^ 0), pos⟩ o = [] := by
  rcases fuel with _ | f
  · omega
  have hs := subdivide_unit pos
  rw [pow_zero]
  simp only [descend, hs]

/-- Path-marking: a successful `set_block_state(p, state)` leaves the
presence bit of every interior node of the descent path set to 1, and
the leaf-parent bit equal to `state` when the leaf offset fell outside
the buffer and to 1 otherwise. -/
theorem setAux_pathBits (m : Nat) :
    ∀ (pos p : Point3D) (data : List Nat) (o fuel : Nat) (st : Bool)
      (d' : List Nat),
    m + 1 ≤ fuel → inCube pos ((2 : Int) ^ m) p →
    setAux fuel data p st ⟨Point3D.ofInt ((2 : Int) ^ m), pos⟩ o = some d' →
    (descend fuel p ⟨Point3D.ofInt ((2 : Int) ^ m), pos⟩ o).length = m ∧
      pathBits d' st (descend fuel p ⟨Point3D.ofInt ((2 : Int) ^ m), pos⟩ o) := by
  induction m with
  | zero =>
    intro pos p data o fuel st d' hf hp hset
    rw [descend_unit fuel p pos o hf]
    exact ⟨rfl, trivial⟩
  | succ m ih =>
    intro pos p data o fuel st d' hf hp hset
    rcases fuel with _ | f
    · omega
    have hp2 : inCube pos (2 * (2 : Int) ^ m) p := by
      rw [← two_pow_succ_int]; exact hp
    obtain ⟨i, cpos, hfind, hi8, hc⟩ :=
      findCell_subdivideList ((2 : Int) ^ m) pos p (by positivity) hp2
    have hfind' : findCell p
        (Cell.subdivideList ⟨Point3D.ofInt ((2 : Int) ^ (m + 1)), pos⟩) 0 =
        some (i, ⟨Point3D.ofInt ((2 : Int) ^ m), cpos⟩) := by
      rw [show Point3D.ofInt ((2 : Int) ^ (m + 1)) = Point3D.ofInt (2 * 2 ^ m) by
        rw [two_pow_succ_int]]
      exact hfind
    simp only [setAux, subdivide_pow_succ, hfind'] at hset
    rcases hgetb : data[o]? with _ | b
    · simp only [hgetb] at hset
      exact Option.noConfusion hset
    simp only [hgetb] at hset
    have ho : o < data.length := (List.getElem?_eq_some_iff.mp hgetb).1
    have hdesc : descend (f + 1) p ⟨Point3D.ofInt ((2 : Int) ^ (m + 1)), pos⟩ o =
        (o, i) :: descend f p ⟨Point3D.ofInt ((2 : Int) ^ m), cpos⟩
          (o * 8 + (i + 1)) := by
      simp only [descend, subdivide_pow_succ, hfind']
    rcases m with _ | m'
    · -- the matched child is a unit cell: this is the leaf-parent level
      have hd' : d' = writeByte data o i b st (o * 8 + (i + 1)) := by
        rw [setAux_unit f _ p st cpos (o * 8 + (i + 1)) (by omega)] at hset
        exact (Option.some_inj.mp hset).symm
      rw [hdesc, descend_unit f p cpos (o * 8 + (i + 1)) (by omega)]
      refine ⟨rfl, ?_⟩
      have hvo : d'[o]? = some (if data.length ≤ o * 8 + (i + 1) then
          (b ||| 1 <<< i) &&& (255 ^^^ 1 <<< i) ||| (cond st 1 0) <<< i
        else b ||| 1 <<< i) := by
        rw [hd']
        exact writeByte_getElem_self data o i b st (o * 8 + (i + 1)) ho
      have hlen : d'.length = data.length := by
        rw [hd', writeByte_length]
      simp only [pathBits, List.getD_eq_getElem?_getD, hvo, Option.getD_some, hlen]
      by_cases hnext : data.length ≤ o * 8 + (i + 1)
      · rw [if_pos hnext, testBit_overwrite b i st hi8,
          decide_eq_false (by omega), Bool.or_false]
      · rw [if_neg hnext, testBit_or_mask b i, decide_eq_true (by omega),
          Bool.or_true]
    · -- interior level: the child still subdivides, so the recursion
      -- read the child's byte and the leaf overwrite branch was not taken
      have hset0 := hset
      have hnext : o * 8 + (i + 1) < data.length := by
        rcases f with _ | f'
        · omega
        have hc2 : inCube cpos (2 * (2 : Int) ^ m') p := by
          rw [← two_pow_succ_int]; exact hc
        obtain ⟨i2, cpos2, hfind2, hi82, hcc2⟩ :=
          findCell_subdivideList ((2 : Int) ^ m') cpos p (by positivity) hc2
        have hfind2' : findCell p
            (Cell.subdivideList ⟨Point3D.ofInt ((2 : Int) ^ (m' + 1)), cpos⟩) 0 =
            some (i2, ⟨Point3D.ofInt ((2 : Int) ^ m'), cpos2⟩) := by
          rw [show Point3D.ofInt ((2 : Int) ^ (m' + 1)) =
              Point3D.ofInt (2 * 2 ^ m') by rw [two_pow_succ_int]]
          exact hfind2
        simp only [setAux, subdivide_pow_succ, hfind2'] at hset
        rcases hre : (writeByte data o i b st (o * 8 + (i + 1)))[o * 8 + (i + 1)]?
          with _ | b2
        · rw [hre] at hset
          exact Option.noConfusion hset
        · have := (List.getElem?_eq_some_iff.mp hre).1
          rw [writeByte_length] at this
          exact this
      have hW : writeByte data o i b st (o * 8 + (i + 1)) =
          data.set o (b ||| 1 <<< i) :=
        writeByte_eq_of_lt data o i b st _ hnext
      rw [hW] at hset0
      obtain ⟨hrest_len, hrest_bits⟩ := ih cpos p (data.set o (b ||| 1 <<< i))
        (o * 8 + (i + 1)) f st d' (by omega) hc hset0
      obtain ⟨hlen', hpres⟩ := setAux_frame f (data.set o (b ||| 1 <<< i)) p st
        ⟨Point3D.ofInt ((2 : Int) ^ (m' + 1)), cpos⟩ (o * 8 + (i + 1)) d' hset0
      have hdo : d'[o]? = some (b ||| 1 <<< i) := by
        rw [hpres o (by omega), List.getElem?_set_self ho]
      rw [hdesc]
      obtain ⟨r, rs, hrs⟩ : ∃ r rs, descend f p
          ⟨Point3D.ofInt ((2 : Int) ^ (m' + 1)), cpos⟩ (o * 8 + (i + 1)) =
          r :: rs := by
        rcases hd : descend f p ⟨Point3D.ofInt ((2 : Int) ^ (m' + 1)), cpos⟩
          (o * 8 + (i + 1)) with _ | ⟨r, rs⟩
        · rw [hd] at hrest_len
          simp at hrest_len
        · exact ⟨r, rs, rfl⟩
      rw [hrs]
      rw [hrs] at hrest_len hrest_bits
      refine ⟨by simpa using hrest_len, ?_⟩
      simp only [pathBits]
      constructor
      · rw [List.getD_eq_getElem?_getD, hdo, Option.getD_some]
        exact testBit_or_mask b i
      · exact hrest_bits

/-- `writeByte` is the identity on a buffer whose byte at `offset`
already has bit `i` set, when writing `state = true`. -/
theorem writeByte_self {l : List Nat} {o i v : Nat} (next : Nat)
    (h : l[o]? = some v) (hv : v.testBit i = true) (hv256 : v < 256)
    (hi : i < 8) : writeByte l o i v true next = l := by
  have hor : v ||| 1 <<< i = v := or_mask_eq_self v i hv
  simp only [writeByte, hor, list_set_self h, cond_true]
  split
  · rw [overwrite_eq_self v i hv256 hi hv, list_set_self h]
  · rfl

/-- Setting the same point to `true` twice changes the buffer exactly
as much as setting it once (the second pass rewrites every byte with
its current value). -/
theorem setAux_idem (fuel : Nat) :
    ∀ (data : List Nat) (p : Point3D) (cell : Cell) (o : Nat) (d' : List Nat),
    (∀ v ∈ data, v < 256) →
    setAux fuel data p true cell o = some d' →
    setAux fuel d' p true cell o = some d' := by
  induction fuel with
  | zero => intro data p cell o d' _ h; simp [setAux] at h
  | succ f ih =>
    intro data p cell o d' hdata h
    rcases hsub : cell.subdivide with _ | cells
    · simp only [setAux, hsub] at h ⊢
    rcases hfind : findCell p cells 0 with _ | ⟨i, child⟩
    · simp only [setAux, hsub, hfind] at h ⊢
    rcases hget : data[o]? with _ | b
    · simp only [setAux, hsub, hfind, hget] at h
      exact Option.noConfusion h
    simp only [setAux, hsub, hfind, hget] at h
    have hi8 : i < 8 := by
      obtain ⟨j, hj, hij, _, _⟩ := findCell_spec cells 0 hfind
      have : cells.length = 8 := by rw [subdivide_eq_some hsub]; rfl
      omega
    have hb : b < 256 := hdata b (List.getElem?_mem hget)
    have ho : o < data.length := (List.getElem?_eq_some_iff.mp hget).1
    have hWbytes := writeByte_bytes data o i b true (o * 8 + (i + 1)) hdata hb hi8
    obtain ⟨hlen', hpres⟩ := setAux_frame f
      (writeByte data o i b true (o * 8 + (i + 1))) p true child
      (o * 8 + (i + 1)) d' h
    have hvo : d'[o]? = some (if data.length ≤ o * 8 + (i + 1) then
        (b ||| 1 <<< i) &&& (255 ^^^ 1 <<< i) ||| (cond true 1 0) <<< i
      else b ||| 1 <<< i) := by
      rw [hpres o (by omega)]
      exact writeByte_getElem_self data o i b true (o * 8 + (i + 1)) ho
    have hvbit : (if data.length ≤ o * 8 + (i + 1) then
        (b ||| 1 <<< i) &&& (255 ^^^ 1 <<< i) ||| (cond true 1 0) <<< i
      else b ||| 1 <<< i).testBit i = true := by
      split
      · exact testBit_overwrite b i true hi8
      · exact testBit_or_mask b i
    have hv256 : (if data.length ≤ o * 8 + (i + 1) then
        (b ||| 1 <<< i) &&& (255 ^^^ 1 <<< i) ||| (cond true 1 0) <<< i
      else b ||| 1 <<< i) < 256 :=
      setAux_bytes f _ p true child _ d' h hWbytes _ (List.getElem?_mem hvo)
    simp only [setAux, hsub, hfind, hvo]
    rw [writeByte_self (o * 8 + (i + 1)) hvo hvbit hv256 hi8]
    exact ih _ p child _ d' hWbytes h

/-! ### Points outside the domain -/

theorem findCell_eq_none {p : Point3D} {l : List Cell}
    (h : ∀ c ∈ l, c.contains p = false) : ∀ n, findCell p l n = none := by
  induction l with
  | nil => intro n; rfl
  | cons hd tl ih =>
    intro n
    rw [findCell, if_neg (by simp [h hd (by simp)])]
    exact ih (fun c hc => h c (by simp [hc])) (n + 1)

theorem tdiv_two_le {s : Int} (h : 1 ≤ s.tdiv 2) : 2 * s.tdiv 2 ≤ s := by
  rcases le_or_lt s 0 with hs | hs
  · have h2 : (0 : Int) ≤ -s := by omega
    have h3 := Int.tdiv_nonneg h2 (by norm_num : (0 : Int) ≤ 2)
    rw [Int.neg_tdiv] at h3
    omega
  · rw [Int.tdiv_eq_ediv (by omega) (by omega)]
    omega

/-- If any child of the root cell contains `p`, then `p` lies inside
the domain `[0, size)^3`. -/
theorem inCube_of_mem_rootChildren {s : Int} {p : Point3D} {c : Cell}
    (hc : c ∈ (Cell.new 0 s).subdivideList) (hcp : c.contains p = true) :
    inCube (Point3D.ofInt 0) s p := by
  have hdiv : 1 ≤ s.tdiv 2 → 2 * s.tdiv 2 ≤ s := tdiv_two_le
  simp only [Cell.subdivideList, Cell.new, Point3D.divScalar, Point3D.ofInt,
    List.mem_cons, List.not_mem_nil, or_false] at hc
  rcases hc with hc | hc | hc | hc | hc | hc | hc | hc <;>
    (subst hc
     simp only [Cell.contains, decide_eq_true_eq, Point3D.add_x, Point3D.add_y,
       Point3D.add_z] at hcp
     simp only [inCube, Point3D.ofInt]
     by_cases h1 : 1 ≤ s.tdiv 2
     · have h2 := hdiv h1
       omega
     · omega)

theorem getAux_outside (s : Int) (data : List Nat) (p : Point3D) (fuel : Nat)
    (hf : 1 ≤ fuel) (h : ¬ inCube (Point3D.ofInt 0) s p) :
    getAux fuel data p (Cell.new 0 s) 0 = some true := by
  rcases fuel with _ | f
  · omega
  rcases hsub : (Cell.new 0 s).subdivide with _ | cells
  · simp only [getAux, hsub]
  · have hnone : findCell p cells 0 = none := by
      apply findCell_eq_none
      intro c hcmem
      rcases hcontains : c.contains p with _ | _
      · rfl
      · exact absurd (inCube_of_mem_rootChildren
          (subdivide_eq_some hsub ▸ hcmem) hcontains) h
    simp only [getAux, hsub, hnone]

/-! ### Size estimation and alignment arithmetic -/

theorem estimated_size_lt (size : Nat) : Tree.estimated_size size < 2 ^ 32 := by
  unfold Tree.estimated_size subU32
  exact lt_of_le_of_lt (Nat.div_le_self _ 8) (Nat.mod_lt _ (by norm_num))

theorem high_mask_eq (a : Nat) (ha : a ≤ 64) :
    (2 ^ 64 - 2 ^ a : Nat) = (2 ^ (64 - a) - 1) <<< a := by
  rw [Nat.shiftLeft_eq, Nat.sub_mul, one_mul, ← Nat.pow_add]
  congr 2
  omega

theorem land_high_mask {x a : Nat} (hx : x < 2 ^ 64) (ha : a ≤ 64) :
    x &&& (2 ^ 64 - 2 ^ a) = 2 ^ a * (x / 2 ^ a) := by
  have hrhs : 2 ^ a * (x / 2 ^ a) = (x >>> a) <<< a := by
    rw [Nat.shiftRight_eq_div_pow, Nat.shiftLeft_eq, Nat.mul_comm]
  rw [hrhs, high_mask_eq a ha]
  refine Nat.eq_of_testBit_eq fun j => ?_
  rw [Nat.testBit_land, Nat.testBit_shiftLeft, Nat.testBit_shiftLeft,
    Nat.testBit_shiftRight, Nat.testBit_two_pow_sub_one]
  by_cases h1 : j < a
  · rw [decide_eq_false (by omega : ¬ a ≤ j)]
    simp
  · by_cases h2 : j < 64
    · simp [(by omega : a ≤ j), (by omega : j - a < 64 - a),
        (by omega : a + (j - a) = j)]
    · have hxj : x.testBit j = false := Nat.testBit_lt_two_pow (by
        calc x < 2 ^ 64 := hx
        _ ≤ 2 ^ j := Nat.pow_le_pow_right (by norm_num) (by omega))
      simp [(by omega : a ≤ j), (by omega : a + (j - a) = j), hxj,
        (by omega : ¬ j - a < 64 - a)]

theorem xor_low_mask (a : Nat) (ha : a ≤ 64) :
    ((2 ^ 64 - 1 : Nat) ^^^ (2 ^ a - 1)) = 2 ^ 64 - 2 ^ a := by
  rw [high_mask_eq a ha]
  refine Nat.eq_of_testBit_eq fun j => ?_
  rw [Nat.testBit_xor, Nat.testBit_two_pow_sub_one, Nat.testBit_two_pow_sub_one,
    Nat.testBit_shiftLeft, Nat.testBit_two_pow_sub_one]
  by_cases h1 : j < a
  · simp [h1, (by omega : j < 64), (by omega : ¬ a ≤ j)]
  · by_cases h2 : j < 64
    · simp [h1, h2, (by omega : a ≤ j), (by omega : j - a < 64 - a)]
    · simp only [decide_eq_false (by omega : ¬ j < 64),
        decide_eq_false (by omega : ¬ j - a < 64 - a),
        decide_eq_false h1, decide_eq_true (by omega : a ≤ j)]
      rfl

theorem subU64_pow (a : Nat) (ha : a ≤ 63) : subU64 (2 ^ a) 1 = 2 ^ a - 1 := by
  unfold subU64
  have h1 : (1 : Nat) ≤ 2 ^ a := Nat.one_le_two_pow
  have h2 : (2 : Nat) ^ a < 2 ^ 64 := Nat.pow_lt_pow_right (by norm_num) (by omega)
  rw [show (2 ^ a + 2 ^ 64 - 1 : Nat) = (2 ^ a - 1) + 2 ^ 64 by omega,
    Nat.add_mod_right, Nat.mod_eq_of_lt (by omega)]

/-- `estimated_size_aligned` with a power-of-two alignment `2 ^ a` is
exactly the round-up `2^a * ⌈n / 2^a⌉` of `n = estimated_size size`. -/
theorem estimated_size_aligned_spec (size a : Nat) (ha : a ≤ 63) :
    Tree.estimated_size_aligned size (2 ^ a) =
      2 ^ a * ((Tree.estimated_size size + (2 ^ a - 1)) / 2 ^ a) := by
  unfold Tree.estimated_size_aligned
  have hn := estimated_size_lt size
  have h2 : (2 : Nat) ^ a < 2 ^ 63 + 1 := by
    calc (2 : Nat) ^ a ≤ 2 ^ 63 := Nat.pow_le_pow_right (by norm_num) ha
    _ < 2 ^ 63 + 1 := by omega
  have hsum : Tree.estimated_size size + (2 ^ a - 1) < 2 ^ 64 := by
    have : (2 : Nat) ^ 32 + 2 ^ 63 < 2 ^ 64 := by norm_num
    omega
  rw [subU64_pow a ha, Nat.mod_eq_of_lt hsum, xor_low_mask a (by omega),
    land_high_mask hsum (by omega)]

theorem estimated_size_aligned_mod (size a : Nat) (ha : a ≤ 63) :
    Tree.estimated_size_aligned size (2 ^ a) % 2 ^ a = 0 := by
  rw [estimated_size_aligned_spec size a ha]
  exact Nat.mul_mod_right _ _

theorem le_estimated_size_aligned (size a : Nat) (ha : a ≤ 63) :
    Tree.estimated_size size ≤ Tree.estimated_size_aligned size (2 ^ a) := by
  rw [estimated_size_aligned_spec size a ha]
  have h1 := Nat.div_add_mod (Tree.estimated_size size + (2 ^ a - 1)) (2 ^ a)
  have h2 : (Tree.estimated_size size + (2 ^ a - 1)) % 2 ^ a < 2 ^ a :=
    Nat.mod_lt _ (Nat.pos_pow_of_pos a (by norm_num))
  have h3 : (1 : Nat) ≤ 2 ^ a := Nat.one_le_two_pow
  omega

/-- For sizes up to `2 ^ 9 = 512` the wrapping `u32` arithmetic of
`estimated_size` computes the exact mathematical node count
`((8^(depth+1) - 1)/7 - 1)/8`. -/
theorem estimated_size_pow_eq (k : Nat) (hk : k ≤ 9) :
    Tree.estimated_size (2 ^ k) = ((8 ^ (k + 1) - 1) / 7 - 1) / 8 := by
  interval_cases k <;> decide

/-! ### Top-level glue -/

theorem natAbs_two_pow (k : Nat) : ((2 : Int) ^ k).natAbs = 2 ^ k := by
  rw [Int.natAbs_pow]
  rfl

theorem root_offsetBound (k : Nat) (hk1 : 1 ≤ k) (hk : k ≤ 10) :
    offsetBound (k - 1) 0 (Tree.estimated_size_aligned (2 ^ k) 256) := by
  unfold offsetBound
  interval_cases k <;> decide

theorem size_cast_pow (k : Nat) : (((2 ^ k : Nat) : Int)) = (2 : Int) ^ k := by
  push_cast
  rfl

/-- The spec's description of the 8 children of a cell (for C9): child
`i` has half the parent's extent and sits at the parent origin plus
the half-extent offset selected per axis by the bits of `i` — bit 0
selects the `z` offset, bit 1 the `y` offset, bit 2 the `x` offset. -/
def specChildren (c : Cell) : List Cell :=
  (List.range 8).map fun i =>
    ⟨c.extend.divScalar 2,
      c.position + ⟨(if i.testBit 2 then (c.extend.divScalar 2).x else 0),
        (if i.testBit 1 then (c.extend.divScalar 2).y else 0),
        (if i.testBit 0 then (c.extend.divScalar 2).z else 0)⟩⟩

theorem add_zero_triple (p : Point3D) : p + ⟨0, 0, 0⟩ = p := by
  cases p
  show Point3D.mk _ _ _ = _
  simp

theorem subdivideList_eq_specChildren (c : Cell) :
    c.subdivideList = specChildren c := by
  have hr : List.range 8 = [0, 1, 2, 3, 4, 5, 6, 7] := rfl
  simp only [specChildren, hr, List.map_cons, List.map_nil, Cell.subdivideList]
  norm_num [Nat.testBit, Nat.shiftRight_eq_div_pow, add_zero_triple]

theorem set_block_state_eq {t : Tree} {p : Point3D} {state : Bool} {d : List Nat}
    (h : setAux (t.size.natAbs + 1) t.data p state (Cell.new 0 t.size) 0 = some d) :
    t.set_block_state p state = some ⟨d, t.size⟩ := by
  unfold Tree.set_block_state
  rw [h]

theorem set_block_state_some {t : Tree} {p : Point3D} {state : Bool} {t' : Tree}
    (h : t.set_block_state p state = some t') :
    setAux (t.size.natAbs + 1) t.data p state (Cell.new 0 t.size) 0 =
      some t'.data ∧ t'.size = t.size := by
  unfold Tree.set_block_state at h
  rcases hs : setAux (t.size.natAbs + 1) t.data p state (Cell.new 0 t.size) 0
    with _ | d
  · simp only [hs] at h
    exact Option.noConfusion h
  · simp only [hs] at h
    rw [← Option.some_inj.mp h]
    exact ⟨rfl, rfl⟩

/-! ### The claims -/

/-- C1 (code bug): the spec says `Chunk::set_voxel(v, x, y, z)` writes
`v` into the dense array at row-major index `x + y*SIZE + z*SIZE^2`,
so on a fresh `Chunk::<4>` the call `set_voxel(5, 1, 2, 3)` must put
`5` at index `57`.  The Rust body of `set_voxel` is the single no-op
statement `self.voxels[0];`: the chunk is returned unchanged and index
57 still holds `0` (both in the `u16` grid and in the two
little-endian bytes `114`/`115` of `get_raw_voxels`), contradicting
the function's own doc comment ("Set the type of a voxel ...") and the
spec. -/
theorem claim_C1 :
    (Chunk.new 4 ⟨0, 0, 0⟩).set_voxel 5 1 2 3 = some (Chunk.new 4 ⟨0, 0, 0⟩) ∧
    ((Chunk.new 4 ⟨0, 0, 0⟩).set_voxel 5 1 2 3).map
      (fun c => c.voxels.getD 57 0) = some 0 ∧
    ((Chunk.new 4 ⟨0, 0, 0⟩).set_voxel 5 1 2 3).map
      (fun c => c.get_raw_voxels.getD 114 0 + 256 * c.get_raw_voxels.getD 115 0)
      = some 0 ∧
    (0 : Nat) ≠ 5 := by
  refine ⟨by decide, by decide, by decide, by decide⟩

/-- C5, counterexample: `2048 = 2^11` is a power of two, but
`estimated_size(2048)` is computed with wrapping `u32` arithmetic
(`1u32 << 36` masks the shift amount to 4), giving `0` instead of the
claimed `((8^(11+1) - 1)/7 - 1)/8 = 1227133513`. -/
theorem claim_C5_counterexample :
    Tree.estimated_size 2048 = 0 ∧
    ((8 ^ (11 + 1) - 1) / 7 - 1) / 8 = 1227133513 ∧
    Tree.estimated_size 2048 ≠ ((8 ^ (11 + 1) - 1) / 7 - 1) / 8 := by
  refine ⟨by decide, by decide, by decide⟩

/-- C5 (amended): for power-of-two sizes up to `512 = 2^9` — where the
`u32` arithmetic of `estimated_size` does not overflow — and every
power-of-two alignment `2^a` representable in `usize`,
`estimated_size(2^k)` equals `((8^(k+1) - 1)/7 - 1)/8`, and
`estimated_size_aligned(2^k, 2^a)` is a (non-negative) multiple of the
alignment that dominates `estimated_size(2^k)`. -/
theorem claim_C5 (k a : Nat) (hk : k ≤ 9) (ha : a ≤ 63) :
    Tree.estimated_size (2 ^ k) = ((8 ^ (k + 1) - 1) / 7 - 1) / 8 ∧
    Tree.estimated_size_aligned (2 ^ k) (2 ^ a) % 2 ^ a = 0 ∧
    Tree.estimated_size (2 ^ k) ≤ Tree.estimated_size_aligned (2 ^ k) (2 ^ a) :=
  ⟨estimated_size_pow_eq k hk, estimated_size_aligned_mod _ a ha,
    le_estimated_size_aligned _ a ha⟩

/-- Witness for C5 at `size = 2^3`, alignment `2^8 = 256`. -/
theorem claim_C5_witness :
    Tree.estimated_size (2 ^ 3) = ((8 ^ (3 + 1) - 1) / 7 - 1) / 8 ∧
    Tree.estimated_size_aligned (2 ^ 3) (2 ^ 8) % 2 ^ 8 = 0 ∧
    Tree.estimated_size (2 ^ 3) ≤ Tree.estimated_size_aligned (2 ^ 3) (2 ^ 8) :=
  claim_C5 3 8 (by norm_num) (by norm_num)

/-- C6: on a fresh size-8 tree, `set_block_state((0,0,0), true)` then
`set_block_state((0,6,0), true)` leaves the root byte equal to `5`
(exactly bits 0 and 2 set: the two points fall in top-level octants 0
and 2); afterwards `get_block_state` answers `true` at both set points
and `false` at `(7,7,7)`. -/
theorem claim_C6 :
    (((Tree.new 8).set_block_state ⟨0, 0, 0⟩ true).bind
      (fun t => t.set_block_state ⟨0, 6, 0⟩ true)).map
        (fun t => t.data.getD 0 0) = some 5 ∧
    (((Tree.new 8).set_block_state ⟨0, 0, 0⟩ true).bind
      (fun t => t.set_block_state ⟨0, 6, 0⟩ true)).bind
        (fun t => t.get_block_state ⟨0, 0, 0⟩) = some true ∧
    (((Tree.new 8).set_block_state ⟨0, 0, 0⟩ true).bind
      (fun t => t.set_block_state ⟨0, 6, 0⟩ true)).bind
        (fun t => t.get_block_state ⟨0, 6, 0⟩) = some true ∧
    (((Tree.new 8).set_block_state ⟨0, 0, 0⟩ true).bind
      (fun t => t.set_block_state ⟨0, 6, 0⟩ true)).bind
        (fun t => t.get_block_state ⟨7, 7, 7⟩) = some false := by
  refine ⟨by decide, by decide, by decide, by decide⟩

/-- C9: `Cell::subdivide` returns `None` exactly when the extent is
`(1,1,1)` (componentwise comparison with the scalar 1 via
`PartialEq<i32>`), and otherwise returns exactly the 8 half-extent
children enumerated by the bit pattern of the child index — bit 0
selecting the `z` offset, bit 1 the `y` offset, bit 2 the `x` offset —
as spelled out by `specChildren` (an 8-element list). -/
theorem claim_C9 (c : Cell) :
    (c.subdivide = none ↔ c.extend = Point3D.ofInt 1) ∧
    (specChildren c).length = 8 ∧
    (c.extend ≠ Point3D.ofInt 1 → c.subdivide = some (specChildren c)) := by
  refine ⟨?_, rfl, ?_⟩
  · unfold Cell.subdivide
    split
    · simpa
    · simp_all
  · intro h
    unfold Cell.subdivide
    rw [if_neg h, subdivideList_eq_specChildren]

/-- Witness for C9: a unit cell does not subdivide, and a `2^3`-extent
cell subdivides into the spec's 8 children. -/
theorem claim_C9_witness :
    ((⟨Point3D.ofInt 1, ⟨4, 5, 6⟩⟩ : Cell).subdivide = none) ∧
    ((⟨Point3D.ofInt 8, ⟨0, 0, 0⟩⟩ : Cell).subdivide =
      some (specChildren ⟨Point3D.ofInt 8, ⟨0, 0, 0⟩⟩)) :=
  ⟨(claim_C9 ⟨Point3D.ofInt 1, ⟨4, 5, 6⟩⟩).1.mpr rfl,
    (claim_C9 ⟨Point3D.ofInt 8, ⟨0, 0, 0⟩⟩).2.2 (by decide)⟩

/-- C10: for any point outside the domain `[0, size)^3` no child of
the root cell contains the point, the search loop falls through, and
`get_block_state` returns the final `true` — on any tree, in
particular on a freshly constructed all-zero one. -/
theorem claim_C10 (t : Tree) (p : Point3D)
    (h : ¬ inCube (Point3D.ofInt 0) t.size p) :
    t.get_block_state p = some true := by
  unfold Tree.get_block_state
  exact getAux_outside t.size t.data p _ (by omega) h

/-- Witness for C10: `(-1, 2, 9)` lies outside `[0,8)^3` and reads as
occupied on a fresh size-8 tree. -/
theorem claim_C10_witness :
    (Tree.new 8).get_block_state ⟨-1, 2, 9⟩ = some true :=
  claim_C10 (Tree.new 8) ⟨-1, 2, 9⟩ (by decide)

/-- C2, counterexample: the claim requires the final bit written for
`p`'s leaf to equal `state` for every state.  On a fresh size-8 tree,
`set_block_state((0,0,0), false)` descends the path with offsets
`[(0,0), (1,0), (9,0)]`; the leaf's parent byte is `data[9]` and its
`next_offset` is `9*8+1 = 73 < 256 = data.len()`, so the leaf
overwrite is skipped: bit 0 of `data[9]` is left at 1 instead of the
demanded `state = false`. -/
theorem claim_C2_counterexample :
    descend ((Tree.new 8).size.natAbs + 1) ⟨0, 0, 0⟩
      (Cell.new 0 (Tree.new 8).size) 0 = [(0, 0), (1, 0), (9, 0)] ∧
    ((Tree.new 8).set_block_state ⟨0, 0, 0⟩ false).map
      (fun t => (t.data.getD 9 0).testBit 0) = some true := by
  refine ⟨by decide, by decide⟩

/-- C2 (amended): after a successful `set_block_state(p, state, None)`
on a tree of power-of-two size `2^k` (`k ≥ 1`) with `p` in the domain,
the root-to-leaf descent path has length `k`, the byte of every
interior node on it has the presence bit of the child containing `p`
set to 1, and the final bit for `p`'s leaf equals `state` when the
leaf's `next_offset` is `≥ data.len()` and is left at 1 otherwise
(`pathBits`). -/
theorem claim_C2 (t : Tree) (k : Nat) (p : Point3D) (state : Bool) (t' : Tree)
    (hk : 1 ≤ k) (hsz : t.size = (2 : Int) ^ k)
    (hp : inCube (Point3D.ofInt 0) t.size p)
    (hset : t.set_block_state p state = some t') :
    (descend (t.size.natAbs + 1) p (Cell.new 0 t.size) 0).length = k ∧
      pathBits t'.data state (descend (t.size.natAbs + 1) p (Cell.new 0 t.size) 0) := by
  obtain ⟨hs, hsize⟩ := set_block_state_some hset
  rw [hsz] at hs hp ⊢
  rw [natAbs_two_pow] at hs ⊢
  have hfuel : k + 1 ≤ 2 ^ k + 1 := by
    have := Nat.lt_two_pow k
    omega
  exact setAux_pathBits k (Point3D.ofInt 0) p t.data 0 (2 ^ k + 1) state t'.data
    hfuel hp hs

/-- Witness for C2 on a fresh size-8 tree at `(0,6,0)`, `state = true`. -/
theorem claim_C2_witness :
    (descend ((Tree.new 8).size.natAbs + 1) ⟨0, 6, 0⟩
      (Cell.new 0 (Tree.new 8).size) 0).length = 3 ∧
      pathBits (((Tree.new 8).set_block_state ⟨0, 6, 0⟩ true).getD (Tree.new 8)).data
        true (descend ((Tree.new 8).size.natAbs + 1) ⟨0, 6, 0⟩
          (Cell.new 0 (Tree.new 8).size) 0) :=
  claim_C2 (Tree.new 8) 3 ⟨0, 6, 0⟩ true _ (by norm_num) (by decide) (by decide)
    (by decide)

/-- C3, counterexample: `2048` is a power of two, but
`estimated_size(2048)` wraps to 0 in `u32`, so `Tree::new(2048)` has
an empty buffer and the very first `data[0] |= mask` of
`set_block_state((0,0,0), true)` faults (out of bounds, `none`): no
state is written, and the claimed follow-up `get_block_state == true`
cannot even be reached. -/
theorem claim_C3_counterexample :
    (Tree.new 2048).set_block_state ⟨0, 0, 0⟩ true = none := by decide

/-- C3 (amended): for trees of power-of-two size `2^k` with `k ≤ 10`
(so the buffer allocated at construction covers every interior node)
and any `p` inside the domain, `set_block_state(p, true, None)`
succeeds and a subsequent `get_block_state(p, None)` returns `true`. -/
theorem claim_C3 (t : Tree) (k : Nat) (p : Point3D) (hk : k ≤ 10)
    (hsz : t.size = (2 : Int) ^ k)
    (hlen : t.data.length = Tree.estimated_size_aligned (2 ^ k) 256)
    (hp : inCube (Point3D.ofInt 0) t.size p) :
    (t.set_block_state p true).bind (fun t' => t'.get_block_state p) = some true := by
  have hcell : Cell.new 0 t.size =
      (⟨Point3D.ofInt ((2 : Int) ^ k), Point3D.ofInt 0⟩ : Cell) := by
    rw [hsz]
    rfl
  rcases Nat.eq_zero_or_pos k with hk0 | hk1
  · subst hk0
    have hs : setAux (t.size.natAbs + 1) t.data p true (Cell.new 0 t.size) 0 =
        some t.data := by
      rw [hcell]
      exact setAux_unit _ _ _ _ _ _ (by omega)
    rw [set_block_state_eq hs]
    show (⟨t.data, t.size⟩ : Tree).get_block_state p = some true
    unfold Tree.get_block_state
    show getAux (t.size.natAbs + 1) t.data p (Cell.new 0 t.size) 0 = some true
    rw [hcell]
    exact getAux_unit _ _ _ _ _ (by omega)
  · have hob : ∀ m', k = m' + 1 → offsetBound m' 0 t.data.length := by
      intro m' hm'
      rw [hlen]
      have h := root_offsetBound k hk1 hk
      rwa [show k - 1 = m' by omega] at h
    obtain ⟨d', hsetA, hgetA⟩ := setAux_getAux_roundtrip k (Point3D.ofInt 0) p
      t.data 0 (t.size.natAbs + 1)
      (by rw [hsz, natAbs_two_pow]; have := Nat.lt_two_pow k; omega)
      (by rwa [hsz] at hp) hob
    have hs : setAux (t.size.natAbs + 1) t.data p true (Cell.new 0 t.size) 0 =
        some d' := by
      rw [hcell]
      exact hsetA
    rw [set_block_state_eq hs]
    show (⟨d', t.size⟩ : Tree).get_block_state p = some true
    unfold Tree.get_block_state
    show getAux (t.size.natAbs + 1) d' p (Cell.new 0 t.size) 0 = some true
    rw [hcell]
    exact hgetA

/-- Witness for C3 on a fresh size-8 tree at `(1,2,3)`. -/
theorem claim_C3_witness :
    ((Tree.new 8).set_block_state ⟨1, 2, 3⟩ true).bind
      (fun t' => t'.get_block_state ⟨1, 2, 3⟩) = some true :=
  claim_C3 (Tree.new 8) 3 ⟨1, 2, 3⟩ (by norm_num) (by decide) (by decide)
    (by decide)

/-- C4, counterexample: on `Tree::new(2048)` (power-of-two size, empty
buffer because the `u32` size estimate wrapped to 0) both operations
index `data[0]` with `0 = data.len()`: an out-of-bounds access, `none`
in the model.  The claim's "no out-of-bounds access can occur" is
therefore false as stated. -/
theorem claim_C4_counterexample :
    (Tree.new 2048).set_block_state ⟨0, 0, 0⟩ true = none ∧
    (Tree.new 2048).get_block_state ⟨0, 0, 0⟩ = none := by
  refine ⟨by decide, by decide⟩

/-- C4 (amended): for trees of power-of-two size `2^k` with `k ≤ 10`
(the construction-time buffer covers every interior node), for every
`p` inside the domain and every state, `set_block_state` and
`get_block_state` complete without any out-of-bounds index (`isSome`
in the model, where an out-of-bounds `data[offset]` is `none`). -/
theorem claim_C4 (t : Tree) (k : Nat) (p : Point3D) (state : Bool) (hk : k ≤ 10)
    (hsz : t.size = (2 : Int) ^ k)
    (hlen : t.data.length = Tree.estimated_size_aligned (2 ^ k) 256)
    (hp : inCube (Point3D.ofInt 0) t.size p) :
    (t.set_block_state p state).isSome ∧ (t.get_block_state p).isSome := by
  have hcell : Cell.new 0 t.size =
      (⟨Point3D.ofInt ((2 : Int) ^ k), Point3D.ofInt 0⟩ : Cell) := by
    rw [hsz]
    rfl
  rcases Nat.eq_zero_or_pos k with hk0 | hk1
  · subst hk0
    have hs : setAux (t.size.natAbs + 1) t.data p state (Cell.new 0 t.size) 0 =
        some t.data := by
      rw [hcell]
      exact setAux_unit _ _ _ _ _ _ (by omega)
    refine ⟨by rw [set_block_state_eq hs]; rfl, ?_⟩
    unfold Tree.get_block_state
    rw [hcell, getAux_unit _ _ _ _ _ (by omega)]
    rfl
  · have hob : ∀ m', k = m' + 1 → offsetBound m' 0 t.data.length := by
      intro m' hm'
      rw [hlen]
      have h := root_offsetBound k hk1 hk
      rwa [show k - 1 = m' by omega] at h
    obtain ⟨hsetS, hgetS⟩ := setAux_getAux_total k (Point3D.ofInt 0) p t.data 0
      (t.size.natAbs + 1) state
      (by rw [hsz, natAbs_two_pow]; have := Nat.lt_two_pow k; omega)
      (by rwa [hsz] at hp) hob
    constructor
    · obtain ⟨d, hd⟩ := Option.isSome_iff_exists.mp hsetS
      rw [set_block_state_eq (by rw [hcell]; exact hd)]
      rfl
    · unfold Tree.get_block_state
      rw [hcell]
      exact hgetS

/-- Witness for C4 on a fresh size-8 tree at `(7,7,7)`, `state = false`. -/
theorem claim_C4_witness :
    ((Tree.new 8).set_block_state ⟨7, 7, 7⟩ false).isSome ∧
      ((Tree.new 8).get_block_state ⟨7, 7, 7⟩).isSome :=
  claim_C4 (Tree.new 8) 3 ⟨7, 7, 7⟩ false (by norm_num) (by decide) (by decide)
    (by decide)

/-- C7, counterexample: `1 = 2^0` is a power of two, `(0,0,0)` lies in
the domain `[0,1)^3` of the freshly constructed `Tree::new(1)` (whose
buffer is empty and all-zero), yet `get_block_state((0,0,0), None)`
returns `true`, not `false`: the root cell has extent `(1,1,1)`, so
subdivision fails immediately and the function falls through to its
final `return true`. -/
theorem claim_C7_counterexample :
    inCube (Point3D.ofInt 0) (Tree.new 1).size ⟨0, 0, 0⟩ ∧
    (Tree.new 1).get_block_state ⟨0, 0, 0⟩ = some true := by
  refine ⟨by decide, by decide⟩

theorem getAux_fresh_false (m : Nat) (p : Point3D) (data : List Nat)
    (fuel : Nat) (hf : 1 ≤ fuel)
    (hp : inCube (Point3D.ofInt 0) ((2 : Int) ^ (m + 1)) p)
    (hzero : data[0]? = some 0) :
    getAux fuel data p ⟨Point3D.ofInt ((2 : Int) ^ (m + 1)), Point3D.ofInt 0⟩ 0 =
      some false := by
  rcases fuel with _ | f
  · omega
  have hp2 : inCube (Point3D.ofInt 0) (2 * (2 : Int) ^ m) p := by
    rw [← two_pow_succ_int]
    exact hp
  obtain ⟨i, cpos, hfind, hi8, hc⟩ :=
    findCell_subdivideList ((2 : Int) ^ m) (Point3D.ofInt 0) p (by positivity) hp2
  have hfind' : findCell p
      (Cell.subdivideList ⟨Point3D.ofInt ((2 : Int) ^ (m + 1)), Point3D.ofInt 0⟩) 0 =
      some (i, ⟨Point3D.ofInt ((2 : Int) ^ m), cpos⟩) := by
    rw [show Point3D.ofInt ((2 : Int) ^ (m + 1)) = Point3D.ofInt (2 * 2 ^ m) by
      rw [two_pow_succ_int]]
    exact hfind
  simp only [getAux, subdivide_pow_succ, hfind', hzero]
  rw [if_pos]
  rw [Nat.zero_and]
  have : (0 : Nat) < 1 <<< i := by
    rw [Nat.shiftLeft_eq, one_mul]
    positivity
  omega

theorem aligned_pos (k : Nat) (hk1 : 1 ≤ k) (hk : k ≤ 10) :
    0 < Tree.estimated_size_aligned (2 ^ k) 256 := by
  interval_cases k <;> decide

/-- C7 (amended): on a freshly constructed all-zero tree of
power-of-two size `2^k` with `1 ≤ k ≤ 10`, every point inside the
domain reads back `false` before any mutation — the root byte is 0, so
the very first presence-bit check fails.  (Size 1 is excluded by the
counterexample; sizes ≥ 2048 can fault or misbehave because the
`u32` size estimate wraps.) -/
theorem claim_C7 (k : Nat) (p : Point3D) (hk1 : 1 ≤ k) (hk : k ≤ 10)
    (hp : inCube (Point3D.ofInt 0) ((2 : Int) ^ k) p) :
    (Tree.new (2 ^ k)).get_block_state p = some false := by
  unfold Tree.get_block_state
  rw [show (Tree.new (2 ^ k)).size = (2 : Int) ^ k from size_cast_pow k]
  rcases k with _ | m
  · omega
  apply getAux_fresh_false m p _ _ (by omega) hp
  show (List.replicate (Tree.estimated_size_aligned (2 ^ (m + 1)) 256) 0)[0]? =
    some 0
  rw [List.getElem?_replicate, if_pos (aligned_pos (m + 1) hk1 hk)]

/-- Witness for C7 on a fresh size-8 tree at `(5,5,5)`. -/
theorem claim_C7_witness :
    (Tree.new (2 ^ 3)).get_block_state ⟨5, 5, 5⟩ = some false :=
  claim_C7 3 ⟨5, 5, 5⟩ (by norm_num) (by norm_num) (by decide)

/-- C8: setting the same in-domain point to `true` twice leaves the
buffer exactly as one call does — the second pass re-reads each path
byte (a `u8`, hence `< 256`) and writes back its current value.
Stated for any tree state whose bytes are in `u8` range, which every
reachable buffer satisfies. -/
theorem claim_C8 (t : Tree) (p : Point3D) (hbytes : ∀ v ∈ t.data, v < 256)
    (hp : inCube (Point3D.ofInt 0) t.size p) :
    (t.set_block_state p true).bind (fun t' => t'.set_block_state p true) =
      t.set_block_state p true := by
  rcases hs : setAux (t.size.natAbs + 1) t.data p true (Cell.new 0 t.size) 0
    with _ | d
  · have hnone : t.set_block_state p true = none := by
      unfold Tree.set_block_state
      rw [hs]
    rw [hnone]
    rfl
  · rw [set_block_state_eq hs]
    show (⟨d, t.size⟩ : Tree).set_block_state p true = some ⟨d, t.size⟩
    exact set_block_state_eq
      (setAux_idem (t.size.natAbs + 1) t.data p (Cell.new 0 t.size) 0 d hbytes hs)

/-- Witness for C8 on a fresh size-8 tree at `(2,3,4)`. -/
theorem claim_C8_witness :
    ((Tree.new 8).set_block_state ⟨2, 3, 4⟩ true).bind
      (fun t' => t'.set_block_state ⟨2, 3, 4⟩ true) =
      (Tree.new 8).set_block_state ⟨2, 3, 4⟩ true :=
  claim_C8 (Tree.new 8) ⟨2, 3, 4⟩ (by decide) (by decide)

end Voxel
